import Mathlib

/-!
Verification of the Cortex local knowledge indexer (Rust, Tauri backend).

This file shallowly embeds the parts of the source that the checked claims
are about:

* `src-tauri/src/error.rs`       — the closed error enumeration
  (the `InvalidPath` variant is constructed in
  `src-tauri/src/export/path_validator.rs`, so it is part of the modeled
  error type even though the copy of `error.rs` omits it);
* `src-tauri/src/indexer/types.rs`   — `IndexPriority::from_size`;
* `src-tauri/src/export/rake_exporter.rs` — `RakeExporter::chunk_text`
  (strings are embedded as `List Char`, words as whitespace-free runs);
* `src-tauri/src/db/schema.rs` and `db/operations.rs` — a relational model
  of the `files`, `file_content` and `files_fts` tables together with the
  three FTS synchronisation triggers, and the operations
  `insert_file`, `upsert_file_content`, `mark_file_deleted`,
  `delete_file`, `search_files_fts`;
* `src-tauri/src/indexer/scanner.rs` and `commands/indexing.rs` —
  the job sort of `scan_directory` and the per-root concatenation done by
  `run_indexing_pipeline`;
* `src-tauri/src/export/path_validator.rs` — `validate_export_path`,
  over an explicit filesystem environment (cwd, home, temp, existence,
  canonicalisation);
* `src-tauri/src/commands/search.rs`  — the preview computation of
  `get_file_detail` (text embedded as UTF-8 byte lists, because the source
  slices by byte index);
* `src-tauri/src/commands/ai_commands.rs` — the fetch-and-embed loop of
  `generate_all_embeddings` (its database helper
  `get_files_without_embeddings` is absent from the source tree and is
  modelled from the specification).
-/

namespace Cortex

/-- The error enumeration of `error.rs`, extended with the `InvalidPath`
variant that `path_validator.rs` constructs (spec section 7 lists it in the
closed error set).  Note there is no `Duplicate` variant anywhere in the
source. -/
inductive CortexError where
  | DatabaseError (message : String)
  | PermissionDenied (path suggestion : String)
  | FileNotFound (path : String)
  | ExtractionFailed (path error : String)
  | IndexingInProgress
  | SearchTimeout
  | InvalidQuery (query reason : String)
  | InvalidPath (path reason : String)
  | Internal (message : String)
deriving DecidableEq, Repr

/-! ## Priorities (`indexer/types.rs`) -/

/-- `IndexPriority` from `indexer/types.rs`; the Rust discriminants are
`Low = 0, Normal = 1, High = 2, Immediate = 3` and `Ord` is derived from
them. -/
inductive IndexPriority where
  | Low
  | Normal
  | High
  | Immediate
deriving DecidableEq, Repr

/-- The Rust discriminant of a priority, which drives the derived `Ord`. -/
def IndexPriority.toDiscr : IndexPriority → Nat
  | .Low => 0
  | .Normal => 1
  | .High => 2
  | .Immediate => 3

/-- `IndexPriority::from_size` from `indexer/types.rs`. -/
def IndexPriority.fromSize (size : Nat) : IndexPriority :=
  if size < 1000000 then .Immediate
  else if size < 10000000 then .High
  else if size < 100000000 then .Normal
  else .Low

end Cortex

namespace Cortex

/-! ## Export chunking (`export/rake_exporter.rs`)

Strings are embedded as `List Char`.  `str::split_whitespace` is modelled
by `splitWs`, which walks the character list with an accumulator for the
current word, exactly as the iterator adapter consumes the string. -/

/-- Whitespace test used by `split_whitespace`. -/
def isWsChar (c : Char) : Bool := c.isWhitespace

/-- Worker for `splitWs`: `acc` holds the reversed current word. -/
def splitWsAux : List Char → List Char → List (List Char)
  | [], acc => if acc.isEmpty then [] else [acc.reverse]
  | c :: cs, acc =>
    if isWsChar c then
      if acc.isEmpty then splitWsAux cs [] else acc.reverse :: splitWsAux cs []
    else splitWsAux cs (c :: acc)

/-- `str::split_whitespace` collected into a list of words. -/
def splitWs (l : List Char) : List (List Char) := splitWsAux l []

/-- `Vec::<&str>::join(" ")` on words. -/
def joinWords : List (List Char) → List Char
  | [] => []
  | [w] => w
  | w :: ws => w ++ ' ' :: joinWords ws

/-- The word-accumulation loop of `RakeExporter::chunk_text`: push words
into `current_chunk`; once it reaches `wpc` words, emit it and start
fresh; at the end emit the non-empty remainder. -/
def chunkWords (wpc : Nat) : List (List Char) → List (List Char) →
    List (List (List Char))
  | [], acc => if acc.isEmpty then [] else [acc]
  | w :: rest, acc =>
    let acc' := acc ++ [w]
    if wpc ≤ acc'.length then acc' :: chunkWords wpc rest []
    else chunkWords wpc rest acc'

/-- `RakeExporter::chunk_text(text, target_tokens)`.  The word budget
`(target_tokens as f32 * 0.75) as usize` is exact float arithmetic for the
only call site (`target_tokens = 500`, giving `375`), modelled as
`target_tokens * 3 / 4`. -/
def chunkText (text : List Char) (targetTokens : Nat) : List (List Char) :=
  let words := splitWs text
  let wordsPerChunk := targetTokens * 3 / 4
  let chunks := (chunkWords wordsPerChunk words []).map joinWords
  if chunks.isEmpty then [text] else chunks

/-- Every word produced by `splitWsAux` is non-empty and free of
whitespace characters. -/
theorem splitWsAux_good : ∀ (l acc : List Char),
    (∀ c ∈ acc, isWsChar c = false) →
    ∀ w ∈ splitWsAux l acc, w ≠ [] ∧ ∀ c ∈ w, isWsChar c = false := by
  intro l
  induction l with
  | nil =>
    intro acc hacc w hw
    by_cases h : acc.isEmpty
    · simp [splitWsAux, h] at hw
    · simp [splitWsAux, h] at hw
      subst hw
      constructor
      · simpa [List.isEmpty_iff] using h
      · intro c hc
        exact hacc c (List.mem_reverse.mp hc)
  | cons c cs ih =>
    intro acc hacc w hw
    by_cases hws : isWsChar c
    · by_cases hemp : acc.isEmpty
      · simp [splitWsAux, hws, hemp] at hw
        exact ih [] (by simp) w hw
      · simp [splitWsAux, hws, hemp] at hw
        rcases hw with hw | hw
        · subst hw
          refine ⟨by simpa [List.isEmpty_iff] using hemp, ?_⟩
          intro d hd
          exact hacc d (List.mem_reverse.mp hd)
        · exact ih [] (by simp) w hw
    · simp only [splitWsAux, hws, Bool.false_eq_true, if_false] at hw
      refine ih (c :: acc) ?_ w hw
      intro d hd
      rcases List.mem_cons.mp hd with h | h
      · subst h
        simpa using hws
      · exact hacc d h

/-- Consuming a run of non-whitespace characters only grows the
accumulator. -/
theorem splitWsAux_append (w : List Char) (hw : ∀ c ∈ w, isWsChar c = false) :
    ∀ (l acc : List Char),
    splitWsAux (w ++ l) acc = splitWsAux l (w.reverse ++ acc) := by
  induction w with
  | nil => intro l acc; simp
  | cons c cs ih =>
    intro l acc
    have hc : isWsChar c = false := hw c (by simp)
    have hcs : ∀ d ∈ cs, isWsChar d = false := fun d hd => hw d (by simp [hd])
    have step : splitWsAux (c :: (cs ++ l)) acc = splitWsAux (cs ++ l) (c :: acc) := by
      simp [splitWsAux, hc]
    calc splitWsAux (c :: cs ++ l) acc
        = splitWsAux (cs ++ l) (c :: acc) := step
      _ = splitWsAux l (cs.reverse ++ (c :: acc)) := ih hcs l (c :: acc)
      _ = splitWsAux l ((c :: cs).reverse ++ acc) := by simp

/-- Splitting the space-join of a list of good words recovers the list:
`split_whitespace` is a left inverse of `join(" ")` on non-empty,
whitespace-free words. -/
theorem splitWs_joinWords : ∀ ws : List (List Char),
    (∀ w ∈ ws, w ≠ [] ∧ ∀ c ∈ w, isWsChar c = false) →
    splitWs (joinWords ws) = ws := by
  intro ws
  induction ws with
  | nil => intro _; rfl
  | cons w ws ih =>
    intro hgood
    obtain ⟨hne, hchars⟩ := hgood w (by simp)
    cases ws with
    | nil =>
      show splitWsAux (joinWords [w]) [] = [w]
      have h0 := splitWsAux_append w hchars [] []
      rw [List.append_nil] at h0
      have hje : joinWords [w] = w := rfl
      rw [hje, h0]
      simp [splitWsAux, List.isEmpty_iff, hne]
    | cons w' ws' =>
      have hjw : joinWords (w :: w' :: ws') = w ++ ' ' :: joinWords (w' :: ws') := rfl
      show splitWs (joinWords (w :: w' :: ws')) = w :: w' :: ws'
      rw [hjw]
      show splitWsAux (w ++ ' ' :: joinWords (w' :: ws')) [] = w :: w' :: ws'
      rw [splitWsAux_append w hchars _ []]
      have hsp : isWsChar ' ' = true := by decide
      have hne' : (w.reverse ++ [] : List Char).isEmpty = false := by
        simpa [List.isEmpty_iff] using hne
      simp only [splitWsAux, hsp, if_true, hne', Bool.false_eq_true, if_false]
      have := ih (fun u hu => hgood u (by simp [hu]))
      simp only [splitWs] at this
      simp [this]

/-- The chunk loop preserves the word sequence: joining the produced
chunks gives back the pending accumulator followed by the input words. -/
theorem chunkWords_join (wpc : Nat) : ∀ (ws acc : List (List Char)),
    (chunkWords wpc ws acc).flatten = acc ++ ws := by
  intro ws
  induction ws with
  | nil =>
    intro acc
    by_cases h : acc.isEmpty
    · simp [chunkWords, h, List.isEmpty_iff.mp h]
    · simp [chunkWords, h]
  | cons w rest ih =>
    intro acc
    by_cases h : wpc ≤ (acc ++ [w]).length
    · simp only [chunkWords, h, if_true]
      simp [ih]
    · simp only [chunkWords, h, if_false]
      simp [ih]

/-- Every chunk the loop emits is non-empty and holds at most `wpc`
words, provided the accumulator is strictly below the budget. -/
theorem chunkWords_bounds (wpc : Nat) : ∀ (ws acc : List (List Char)),
    acc.length < wpc →
    ∀ c ∈ chunkWords wpc ws acc, c ≠ [] ∧ c.length ≤ wpc := by
  intro ws
  induction ws with
  | nil =>
    intro acc hlt c hc
    by_cases h : acc.isEmpty
    · simp [chunkWords, h] at hc
    · simp [chunkWords, h] at hc
      subst hc
      exact ⟨by simpa [List.isEmpty_iff] using h, Nat.le_of_lt hlt⟩
  | cons w rest ih =>
    intro acc hlt c hc
    by_cases h : wpc ≤ (acc ++ [w]).length
    · simp only [chunkWords, h, if_true] at hc
      rcases List.mem_cons.mp hc with hceq | hc
      · subst hceq
        refine ⟨by simp, ?_⟩
        simp only [List.length_append, List.length_cons, List.length_nil]
        omega
      · exact ih [] (by simpa using Nat.lt_of_le_of_lt (Nat.zero_le _) hlt) c hc
    · simp only [chunkWords, h, if_false] at hc
      exact ih (acc ++ [w]) (by omega) c hc

/-- Every chunk before the last one holds exactly `wpc` words. -/
theorem chunkWords_full (wpc : Nat) : ∀ (ws acc : List (List Char)),
    acc.length < wpc →
    ∀ c ∈ (chunkWords wpc ws acc).dropLast, c.length = wpc := by
  intro ws
  induction ws with
  | nil =>
    intro acc _ c hc
    by_cases h : acc.isEmpty
    · simp [chunkWords, h] at hc
    · simp [chunkWords, h] at hc
  | cons w rest ih =>
    intro acc hlt c hc
    by_cases h : wpc ≤ (acc ++ [w]).length
    · simp only [chunkWords, h, if_true] at hc
      cases htail : chunkWords wpc rest [] with
      | nil => simp [htail] at hc
      | cons t ts =>
        rw [htail, List.dropLast_cons₂] at hc
        rcases List.mem_cons.mp hc with hceq | hc
        · subst hceq
          simp only [List.length_append, List.length_cons, List.length_nil]
          simp only [List.length_append, List.length_cons, List.length_nil] at h
          omega
        · have := ih [] (by simp only [List.length_nil]; omega) c
          rw [htail] at this
          exact this hc
    · simp only [chunkWords, h, if_false] at hc
      exact ih (acc ++ [w]) (by omega) c hc

/-- The loop emits at least one chunk whenever it has words pending. -/
theorem chunkWords_ne_nil (wpc : Nat) : ∀ (ws acc : List (List Char)),
    ws ≠ [] ∨ acc ≠ [] → chunkWords wpc ws acc ≠ [] := by
  intro ws
  induction ws with
  | nil =>
    intro acc h
    have hacc : acc ≠ [] := h.resolve_left (by simp)
    simp [chunkWords, List.isEmpty_iff, hacc]
  | cons w rest ih =>
    intro acc _
    by_cases h : wpc ≤ (acc ++ [w]).length
    · have h' : wpc ≤ acc.length + 1 := by simpa using h
      simp [chunkWords, h']
    · simp only [chunkWords, h, if_false]
      exact ih (acc ++ [w]) (Or.inr (by simp))

/-- On a text with at least one word, `chunk_text` never takes the
raw-text fallback branch, and splitting its chunks back into words gives
exactly the word chunks of the loop. -/
theorem chunkText_map_splitWs (text : List Char) (h : splitWs text ≠ []) :
    (chunkText text 500).map splitWs = chunkWords 375 (splitWs text) [] := by
  have hnn : chunkWords 375 (splitWs text) [] ≠ [] :=
    chunkWords_ne_nil 375 (splitWs text) [] (Or.inl h)
  have hchunks : chunkText text 500
      = (chunkWords 375 (splitWs text) []).map joinWords := by
    unfold chunkText
    simp only [show (500 * 3 / 4 : Nat) = 375 from rfl]
    rw [if_neg]
    simp [List.isEmpty_iff, hnn]
  rw [hchunks, List.map_map]
  have hgood : ∀ c ∈ chunkWords 375 (splitWs text) [],
      ∀ w ∈ c, w ≠ [] ∧ ∀ d ∈ w, isWsChar d = false := by
    intro c hc w hw
    have hmem : w ∈ (chunkWords 375 (splitWs text) []).flatten :=
      List.mem_flatten.mpr ⟨c, hc, hw⟩
    rw [chunkWords_join, List.nil_append] at hmem
    exact splitWsAux_good text [] (by simp) w hmem
  have : ∀ c ∈ chunkWords 375 (splitWs text) [],
      (splitWs ∘ joinWords) c = id c := by
    intro c hc
    simpa using splitWs_joinWords c (hgood c hc)
  rw [List.map_congr_left this, List.map_id]

end Cortex

/-- C3: on any text with at least one whitespace-separated word,
`chunk_text(text, 500)` emits chunks of exactly 375 words each until fewer
than 375 words remain and the remaining words as a final chunk (every
chunk is non-empty with at most 375 words; every non-final chunk has
exactly 375), and the concatenation of the chunks' word sequences is the
word sequence of the input, so the total word count is preserved; on a
text with no words it emits exactly one chunk containing the raw text. -/
theorem Cortex.c3_chunk_text (text : List Char) :
    (splitWs text ≠ [] →
      ((chunkText text 500).map splitWs).flatten = splitWs text ∧
      (∀ c ∈ (chunkText text 500).map splitWs, c ≠ [] ∧ c.length ≤ 375) ∧
      (∀ c ∈ ((chunkText text 500).map splitWs).dropLast, c.length = 375) ∧
      ((chunkText text 500).map (fun c => (splitWs c).length)).sum
        = (splitWs text).length) ∧
    (splitWs text = [] → chunkText text 500 = [text]) := by
  constructor
  · intro h
    have hmap := chunkText_map_splitWs text h
    have hflat : ((chunkText text 500).map splitWs).flatten = splitWs text := by
      rw [hmap, chunkWords_join, List.nil_append]
    refine ⟨hflat, ?_, ?_, ?_⟩
    · rw [hmap]
      exact chunkWords_bounds 375 (splitWs text) [] (by simp)
    · rw [hmap]
      exact chunkWords_full 375 (splitWs text) [] (by simp)
    · have : (chunkText text 500).map (fun c => (splitWs c).length)
          = ((chunkText text 500).map splitWs).map List.length := by
        rw [List.map_map]
        rfl
      rw [this, ← List.length_flatten, hflat]
  · intro h
    simp [chunkText, h, chunkWords]

/-- Witness for C3 at the concrete two-word text `"a b"`. -/
theorem Cortex.c3_chunk_text_witness :
    splitWs ['a', ' ', 'b'] ≠ [] ∧
    (((chunkText ['a', ' ', 'b'] 500).map splitWs).flatten
        = splitWs ['a', ' ', 'b'] ∧
      (∀ c ∈ (chunkText ['a', ' ', 'b'] 500).map splitWs,
        c ≠ [] ∧ c.length ≤ 375) ∧
      (∀ c ∈ ((chunkText ['a', ' ', 'b'] 500).map splitWs).dropLast,
        c.length = 375) ∧
      ((chunkText ['a', ' ', 'b'] 500).map (fun c => (splitWs c).length)).sum
        = (splitWs ['a', ' ', 'b']).length) :=
  ⟨by decide, (Cortex.c3_chunk_text ['a', ' ', 'b']).1 (by decide)⟩

/-- C9: `IndexPriority::from_size` maps a size to `Immediate` iff it is
below 1 MB, to `High` iff it is in [1 MB, 10 MB), to `Normal` iff it is in
[10 MB, 100 MB), and to `Low` iff it is at least 100 MB. -/
theorem Cortex.c9_priority_from_size (s : Nat) :
    (IndexPriority.fromSize s = .Immediate ↔ s < 1000000) ∧
    (IndexPriority.fromSize s = .High ↔ 1000000 ≤ s ∧ s < 10000000) ∧
    (IndexPriority.fromSize s = .Normal ↔ 10000000 ≤ s ∧ s < 100000000) ∧
    (IndexPriority.fromSize s = .Low ↔ 100000000 ≤ s) := by
  unfold IndexPriority.fromSize
  split_ifs with h1 h2 h3 <;>
    refine ⟨?_, ?_, ?_, ?_⟩ <;>
    constructor <;>
    intro hx <;>
    first
      | rfl
      | omega
      | exact absurd hx (by decide)

namespace Cortex

/-! ## The Store (`db/schema.rs`, `db/operations.rs`)

The three SQLite tables are embedded as row lists; `AUTOINCREMENT` on
`files.id` is a `nextId` counter and `last_insert_rowid()` is the id of
the row just appended.  The three FTS triggers of `create_tables` are
folded into the operations that fire them.  `db/mod.rs` never issues
`PRAGMA foreign_keys=ON`, so the `ON DELETE CASCADE` of `file_content`
is inert and a hard `delete_file` removes only the `files` row. -/

/-- A row of the `files` table. -/
structure FileRow where
  id : Nat
  path : String
  filename : String
  fileType : String
  size : Int
  createdAt : String
  modifiedAt : String
  lastIndexed : String
  hash : Option String
  rootPath : String
  isDeleted : Bool
deriving DecidableEq, Repr

/-- A row of the `file_content` table. -/
structure ContentRow where
  fileId : Nat
  textContent : Option String
  wordCount : Option Nat
  summary : Option String
deriving DecidableEq, Repr

/-- A row of the `files_fts` external-content FTS5 table: its rowid is
the `file_id` and its columns are `filename` and `content`. -/
structure FtsRow where
  rowid : Nat
  filename : String
  content : Option String
deriving DecidableEq, Repr

/-- The database state. -/
structure Store where
  files : List FileRow
  contents : List ContentRow
  fts : List FtsRow
  nextId : Nat
deriving DecidableEq, Repr

/-- A freshly created schema. -/
def Store.empty : Store := ⟨[], [], [], 1⟩

/-- `text.split_whitespace().count()` on a Lean `String`, via the
word splitter of the chunking model. -/
def countWordsStr (s : String) : Nat := (splitWs s.data).length

/-- `insert_file` from `db/operations.rs`: a plain INSERT into `files`.
A duplicate `path` violates the `UNIQUE` column constraint, which
`From<rusqlite::Error>` turns into `CortexError::DatabaseError`
(`error.rs` has no `Duplicate` variant).  On success it returns
`last_insert_rowid()`. -/
def insertFileOp (s : Store) (path filename fileType : String) (size : Int)
    (createdAt modifiedAt : String) (hash : Option String)
    (rootPath : String) (now : String) : Except CortexError (Store × Nat) :=
  if s.files.any (fun f => f.path == path) then
    .error (.DatabaseError "UNIQUE constraint failed: files.path")
  else
    let id := s.nextId
    let row : FileRow :=
      ⟨id, path, filename, fileType, size, createdAt, modifiedAt, now,
        hash, rootPath, false⟩
    .ok ({ s with files := s.files ++ [row], nextId := id + 1 }, id)

/-- `upsert_file_content` from `db/operations.rs` together with the FTS
triggers of `schema.rs`.  `files_fts` is an external-content FTS5 table
(`content='file_content'`), but `file_content` has no columns named
`filename` or `content`; FTS5 reads old row values from the content
table by the FTS column names.  Consequences, verified against live
SQLite on this exact schema:
* the fresh-insert path works — the `files_fts_insert` trigger supplies
  explicit values (one FTS row per `files` row with the matching id,
  carrying `new.text_content` even when NULL) and touches no content
  table;
* the conflict path (`ON CONFLICT DO UPDATE`) fires the
  `files_fts_update` trigger, whose `UPDATE files_fts` must read the
  old row from `file_content` and fails with
  `no such column: T.filename`, aborting and rolling back the whole
  upsert statement — the content row keeps its old text.  (When the
  trigger's `UPDATE` matches no FTS row, nothing is read and the
  update of `file_content` goes through; under well-formed pipeline
  sequences an FTS row always exists alongside a content row, so the
  conflict path always fails there.) -/
def upsertFileContent (s : Store) (fileId : Nat) (text : Option String)
    (summary : Option String) : Except CortexError Store :=
  let wordCount := text.map countWordsStr
  if s.contents.any (fun c => c.fileId == fileId) then
    if s.fts.any (fun r => r.rowid == fileId) then
      .error (.DatabaseError "no such column: T.filename")
    else
      .ok { s with
        contents := s.contents.map fun c =>
          if c.fileId == fileId then
            { c with textContent := text, wordCount := wordCount,
                     summary := summary }
          else c }
  else
    .ok { s with
      contents := s.contents ++ [⟨fileId, text, wordCount, summary⟩],
      fts := s.fts ++
        ((s.files.filter (fun f => f.id == fileId)).map fun f =>
          ⟨f.id, f.filename, text⟩) }

/-- `mark_file_deleted` from `db/operations.rs`: sets `is_deleted = 1`
and touches nothing else — in particular no FTS row is removed. -/
def markFileDeleted (s : Store) (fileId : Nat) : Store :=
  { s with files := s.files.map fun f =>
      if f.id == fileId then { f with isDeleted := true } else f }

/-- `delete_file` from `db/operations.rs`: `DELETE FROM files` only;
with foreign keys never enabled nothing cascades. -/
def deleteFileOp (s : Store) (fileId : Nat) : Store :=
  { s with files := s.files.filter fun f => !(f.id == fileId) }

/-- The write operations of the Store, as an operation language for
stating state invariants. -/
inductive StoreOp where
  | insertFile (path filename fileType : String) (size : Int)
      (createdAt modifiedAt : String) (hash : Option String)
      (rootPath : String) (now : String)
  | upsertContent (fileId : Nat) (text : Option String)
      (summary : Option String)
  | markDeleted (fileId : Nat)
  | deleteFile (fileId : Nat)
deriving DecidableEq, Repr

/-- Apply one operation; a failing `insert_file` or
`upsert_file_content` leaves the state unchanged, as the aborted and
rolled-back SQL statement does. -/
def applyOp (s : Store) : StoreOp → Store
  | .insertFile p fn ft sz ca ma h rp now =>
    match insertFileOp s p fn ft sz ca ma h rp now with
    | .ok (s', _) => s'
    | .error _ => s
  | .upsertContent fid t sm =>
    match upsertFileContent s fid t sm with
    | .ok s' => s'
    | .error _ => s
  | .markDeleted fid => markFileDeleted s fid
  | .deleteFile fid => deleteFileOp s fid

/-- Apply a sequence of operations. -/
def applyOps (s : Store) (ops : List StoreOp) : Store := ops.foldl applyOp s

/-- An FTS row for this file id exists. -/
def Store.hasFts (s : Store) (fid : Nat) : Bool := s.fts.any (·.rowid == fid)

/-- A `file_content` row for this file id exists. -/
def Store.hasContent (s : Store) (fid : Nat) : Bool :=
  s.contents.any (·.fileId == fid)

/-- A `files` row with this id exists. -/
def Store.hasFile (s : Store) (fid : Nat) : Bool := s.files.any (·.id == fid)

/-- An operation is well-formed in a state when content is only
upserted for existing file ids — exactly how the indexing pipeline calls
the Store (`commands/indexing.rs` upserts with the id `insert_file` just
returned). -/
def wfOp (s : Store) : StoreOp → Bool
  | .upsertContent fid _ _ => s.hasFile fid
  | _ => true

/-- Well-formedness of a whole operation sequence. -/
def wfOps : Store → List StoreOp → Bool
  | _, [] => true
  | s, op :: rest => wfOp s op && wfOps (applyOp s op) rest

end Cortex

namespace Cortex

/-- Congruence for `List.any` under a pointwise-equal predicate. -/
theorem list_any_congr {α : Type} {l : List α} {p q : α → Bool}
    (h : ∀ a ∈ l, p a = q a) : l.any p = l.any q := by
  induction l with
  | nil => exact rfl
  | cons a as ih =>
    have hhead := h a (List.mem_cons_self a as)
    have htail := ih fun b hb => h b (List.mem_cons_of_mem a hb)
    simp [List.any_cons, hhead, htail]

/-- A failing or succeeding `insert_file` never touches `file_content`
or `files_fts`. -/
theorem applyOp_insertFile_fields (s : Store) (p fn ft : String) (sz : Int)
    (ca ma : String) (h : Option String) (rp now : String) :
    (applyOp s (.insertFile p fn ft sz ca ma h rp now)).fts = s.fts ∧
    (applyOp s (.insertFile p fn ft sz ca ma h rp now)).contents
      = s.contents := by
  unfold applyOp insertFileOp
  by_cases hdup : s.files.any (fun f => f.path == p) <;> simp [hdup]

/-- One well-formed operation preserves the FTS/content existence
agreement. -/
theorem wfOp_preserves_sync (s : Store) (op : StoreOp)
    (hwf : wfOp s op = true)
    (hinv : ∀ fid, s.hasFts fid = s.hasContent fid) :
    ∀ fid, (applyOp s op).hasFts fid = (applyOp s op).hasContent fid := by
  intro fid
  cases op with
  | insertFile p fn ft sz ca ma h rp now =>
    obtain ⟨h1, h2⟩ := applyOp_insertFile_fields s p fn ft sz ca ma h rp now
    simp only [Store.hasFts, Store.hasContent, h1, h2]
    exact hinv fid
  | upsertContent ufid t sm =>
    by_cases hex : s.contents.any (fun c => c.fileId == ufid)
    · by_cases hfts : s.fts.any (fun r => r.rowid == ufid)
      · have happ : applyOp s (.upsertContent ufid t sm) = s := by
          simp [applyOp, upsertFileContent, hex, hfts]
        rw [happ]
        exact hinv fid
      · have hftsb : (s.fts.any fun r => r.rowid == ufid) = false := by
          simpa using hfts
        have happ : applyOp s (.upsertContent ufid t sm)
            = { s with contents := s.contents.map fun c =>
                if c.fileId == ufid then
                  { c with textContent := t,
                           wordCount := t.map countWordsStr,
                           summary := sm }
                else c } := by
          simp [applyOp, upsertFileContent, hex, hftsb]
        rw [happ]
        simp only [Store.hasFts, Store.hasContent]
        rw [List.any_map]
        have hr : ∀ c ∈ s.contents,
            ((fun c : ContentRow => c.fileId == fid) ∘ fun c : ContentRow =>
              if c.fileId == ufid then
                { c with textContent := t, wordCount := t.map countWordsStr,
                         summary := sm }
              else c) c
            = (fun c : ContentRow => c.fileId == fid) c := by
          intro c _
          by_cases hc : c.fileId = ufid <;> simp [hc]
        rw [list_any_congr hr]
        exact hinv fid
    · have hexb : (s.contents.any fun c => c.fileId == ufid) = false := by
        simpa using hex
      have happ : applyOp s (.upsertContent ufid t sm)
          = { s with
              contents := s.contents ++ [⟨ufid, t, t.map countWordsStr, sm⟩],
              fts := s.fts ++
                ((s.files.filter (fun f => f.id == ufid)).map fun f =>
                  ⟨f.id, f.filename, t⟩) } := by
        simp [applyOp, upsertFileContent, hexb]
      rw [happ]
      simp only [Store.hasFts, Store.hasContent, List.any_append]
      by_cases hsame : fid = ufid
      · subst hsame
        have hfile : s.hasFile fid = true := by simpa [wfOp] using hwf
        have hnew : ((s.files.filter (fun f => f.id == fid)).map fun f =>
            (⟨f.id, f.filename, t⟩ : FtsRow)).any (·.rowid == fid) = true := by
          rw [List.any_eq_true]
          obtain ⟨f, hf, hfid⟩ := List.any_eq_true.mp hfile
          refine ⟨⟨f.id, f.filename, t⟩, ?_, by simpa using hfid⟩
          exact List.mem_map.mpr ⟨f, List.mem_filter.mpr ⟨hf, hfid⟩, rfl⟩
        simp [hnew]
      · have hnew : ((s.files.filter (fun f => f.id == ufid)).map fun f =>
            (⟨f.id, f.filename, t⟩ : FtsRow)).any (·.rowid == fid) = false := by
          rw [List.any_eq_false]
          intro r hrm
          obtain ⟨f, hf, hfr⟩ := List.mem_map.mp hrm
          have hfu : f.id = ufid := by
            have := (List.mem_filter.mp hf).2
            simpa using this
          subst hfr
          simp only [beq_iff_eq]
          intro hcontra
          exact hsame (by omega)
        have hone : (([⟨ufid, t, t.map countWordsStr, sm⟩] :
            List ContentRow).any (·.fileId == fid)) = false := by
          have : ufid ≠ fid := fun hh => hsame hh.symm
          simp [this]
        rw [hnew, hone]
        simp only [Bool.or_false]
        exact hinv fid
  | markDeleted dfid =>
    simp only [applyOp, markFileDeleted, Store.hasFts, Store.hasContent]
    exact hinv fid
  | deleteFile dfid =>
    simp only [applyOp, deleteFileOp, Store.hasFts, Store.hasContent]
    exact hinv fid

/-- The agreement invariant holds after any well-formed operation
sequence from any state satisfying it. -/
theorem wfOps_preserves_sync : ∀ (ops : List StoreOp) (s : Store),
    wfOps s ops = true →
    (∀ fid, s.hasFts fid = s.hasContent fid) →
    ∀ fid, (applyOps s ops).hasFts fid = (applyOps s ops).hasContent fid := by
  intro ops
  induction ops with
  | nil => intro s _ hinv fid; exact hinv fid
  | cons op rest ih =>
    intro s hwf hinv fid
    have hwf1 : wfOp s op = true := by
      have := hwf
      simp only [wfOps, Bool.and_eq_true] at this
      exact this.1
    have hwf2 : wfOps (applyOp s op) rest = true := by
      have := hwf
      simp only [wfOps, Bool.and_eq_true] at this
      exact this.2
    exact ih (applyOp s op) hwf2 (wfOp_preserves_sync s op hwf1 hinv) fid

end Cortex

/-- Operation sequence exercising a NULL-text upsert followed by a soft
delete on the same file. -/
def Cortex.c1ExOps : List Cortex.StoreOp :=
  [.insertFile "/test/a.txt" "a.txt" "txt" 1 "2025-01-01T00:00:00Z"
      "2025-01-01T00:00:00Z" none "/test" "2025-01-01T00:00:00Z",
   .upsertContent 1 none none,
   .markDeleted 1]

/-- C1 counterexample: after inserting a file, upserting content with
NULL text and soft-deleting the file, an FTS row for the file still
exists (the `files_fts_insert` trigger fires for NULL `text_content`,
and `mark_file_deleted` only flips `is_deleted`), while the claim
demands no FTS row for either a NULL-text or a soft-deleted file. -/
theorem Cortex.c1_fts_consistency_counterexample :
    (Cortex.applyOps Cortex.Store.empty Cortex.c1ExOps).hasFts 1 = true ∧
    ((Cortex.applyOps Cortex.Store.empty Cortex.c1ExOps).contents.any
      fun c => c.fileId == 1 && c.textContent == none) = true ∧
    ((Cortex.applyOps Cortex.Store.empty Cortex.c1ExOps).files.any
      fun f => f.id == 1 && f.isDeleted) = true := by
  decide

/-- C1 (amended): after any well-formed sequence of Store operations
from an empty schema (content upserted only for existing file ids, as
the indexing pipeline does), an FTS row for a file exists if and only if
that file has a `file_content` row — regardless of whether
`text_content` is NULL and regardless of the soft-delete flag;
`upsert_file_content` with NULL text still creates an FTS row and
`mark_file_deleted` leaves the FTS row in place (deleted files are
instead filtered out at query time). -/
theorem Cortex.c1_fts_consistency (ops : List Cortex.StoreOp)
    (hwf : Cortex.wfOps Cortex.Store.empty ops = true) (fid : Nat) :
    (Cortex.applyOps Cortex.Store.empty ops).hasFts fid
      = (Cortex.applyOps Cortex.Store.empty ops).hasContent fid :=
  Cortex.wfOps_preserves_sync ops Cortex.Store.empty hwf (fun _ => rfl) fid

/-- Witness for C1 on the concrete three-operation sequence. -/
theorem Cortex.c1_fts_consistency_witness :
    Cortex.wfOps Cortex.Store.empty Cortex.c1ExOps = true ∧
    (Cortex.applyOps Cortex.Store.empty Cortex.c1ExOps).hasFts 1
      = (Cortex.applyOps Cortex.Store.empty Cortex.c1ExOps).hasContent 1 :=
  ⟨by decide, Cortex.c1_fts_consistency Cortex.c1ExOps (by decide) 1⟩

namespace Cortex

/-! ## Full-text search (`db/operations.rs::search_files_fts`)

The FTS5 `MATCH` predicate lives inside SQLite and is a parameter of
the model (`m`); it runs off the inverted index itself, which the
insert trigger populated with explicit values.  The key fact, verified
on live SQLite with this exact schema: `files_fts` is an
external-content table whose content table `file_content` has no
`filename`/`content` columns, so the `snippet()` result column fails as
soon as a matching row must be produced.  The stable insertion sort
below is shared infrastructure for the scanner's job ordering. -/

/-- Decidable equality of `Except` values, for evaluating concrete
search results. -/
instance {ε α : Type} [DecidableEq ε] [DecidableEq α] :
    DecidableEq (Except ε α)
  | .error a, .error b =>
    if h : a = b then isTrue (congrArg Except.error h)
    else isFalse fun hh => h (Except.error.inj hh)
  | .error _, .ok _ => isFalse fun hh => Except.noConfusion hh
  | .ok _, .error _ => isFalse fun hh => Except.noConfusion hh
  | .ok a, .ok b =>
    if h : a = b then isTrue (congrArg Except.ok h)
    else isFalse fun hh => h (Except.ok.inj hh)

/-- A row of `search_files_fts`'s result set.  The `rank` column (an f64
in SQLite) is modelled as an integer score; only its ordering matters. -/
structure SearchResult where
  fileId : Nat
  path : String
  filename : String
  snippet : String
  score : Int
deriving DecidableEq, Repr

/-- `s.trim().is_empty()` from Rust: the string is empty or consists
only of whitespace characters (trimming leaves the empty string exactly
when every character is whitespace). -/
def isBlank (s : String) : Bool := s.data.all fun c => c.isWhitespace

/-- Insert into a list sorted ascending by `key`, keeping earlier
elements first among equals. -/
def insertByKey {α : Type} (key : α → Int) (x : α) : List α → List α
  | [] => [x]
  | y :: ys => if key x ≤ key y then x :: y :: ys else y :: insertByKey key x ys

/-- Sort ascending by `key` (insertion sort, stable). -/
def sortByKey {α : Type} (key : α → Int) : List α → List α
  | [] => []
  | x :: xs => insertByKey key x (sortByKey key xs)

theorem insertByKey_perm {α : Type} (key : α → Int) (x : α) :
    ∀ l : List α, (insertByKey key x l).Perm (x :: l) := by
  intro l
  induction l with
  | nil => simp [insertByKey]
  | cons y ys ih =>
    by_cases h : key x ≤ key y
    · simp [insertByKey, h]
    · simp only [insertByKey, h, if_false]
      exact (List.Perm.cons y ih).trans (List.Perm.swap x y ys)

theorem sortByKey_perm {α : Type} (key : α → Int) :
    ∀ l : List α, (sortByKey key l).Perm l := by
  intro l
  induction l with
  | nil => simp [sortByKey]
  | cons x xs ih =>
    exact (insertByKey_perm key x (sortByKey key xs)).trans (ih.cons x)

theorem insertByKey_sorted {α : Type} (key : α → Int) (x : α) :
    ∀ l : List α, l.Pairwise (fun a b => key a ≤ key b) →
    (insertByKey key x l).Pairwise (fun a b => key a ≤ key b) := by
  intro l
  induction l with
  | nil => intro _; simp [insertByKey]
  | cons y ys ih =>
    intro hs
    rw [List.pairwise_cons] at hs
    by_cases h : key x ≤ key y
    · simp only [insertByKey, h, if_true]
      rw [List.pairwise_cons]
      refine ⟨?_, List.pairwise_cons.mpr hs⟩
      intro z hz
      rcases List.mem_cons.mp hz with hz | hz
      · subst hz; exact h
      · exact le_trans h (hs.1 z hz)
    · simp only [insertByKey, h, if_false]
      rw [List.pairwise_cons]
      refine ⟨?_, ih hs.2⟩
      intro z hz
      have hz' : z = x ∨ z ∈ ys :=
        List.mem_cons.mp ((insertByKey_perm key x ys).mem_iff.mp hz)
      rcases hz' with hz' | hz'
      · subst hz'
        exact le_of_not_le h
      · exact hs.1 z hz'

theorem sortByKey_sorted {α : Type} (key : α → Int) :
    ∀ l : List α, (sortByKey key l).Pairwise (fun a b => key a ≤ key b) := by
  intro l
  induction l with
  | nil => simp [sortByKey]
  | cons x xs ih => exact insertByKey_sorted key x (sortByKey key xs) ih

/-- The rows of `search_files_fts`'s join that survive the `MATCH`
predicate, the `INNER JOIN files ON files_fts.rowid = f.id` and the
`f.is_deleted = 0` filter.  `m` abstracts the FTS5 `MATCH` test, which
needs no content-table read. -/
def ftsMatchRows (m : String → FtsRow → Bool) (s : Store) (q : String) :
    List (FtsRow × FileRow) :=
  s.fts.filterMap fun r =>
    if m q r then
      match s.files.find? (fun f => f.id == r.rowid) with
      | some f => if f.isDeleted then none else some (r, f)
      | none => none
    else none

/-- `search_files_fts(query, limit)` from `db/operations.rs`: reject an
empty/whitespace query with `InvalidQuery`; otherwise run the joined
`MATCH` query.  Because the `snippet(files_fts, ...)` result column
must read row values from the mis-declared external content table, the
statement fails as soon as one matching row is produced (verified on
live SQLite: `SQL logic error`), which `From<rusqlite::Error>` maps to
`DatabaseError`.  A query with no surviving match evaluates no snippet
and returns the empty list.  Non-empty ranked results are unreachable,
so the bound `limit` can never cut anything. -/
def searchFilesFts (m : String → FtsRow → Bool) (s : Store) (q : String)
    (limit : Nat) : Except CortexError (List SearchResult) :=
  if isBlank q then
    .error (.InvalidQuery q "Query cannot be empty")
  else if (ftsMatchRows m s q).isEmpty then .ok []
  else .error (.DatabaseError "SQL logic error")

/-- Store with a single indexed, non-deleted file, for exercising the
search contract. -/
def c2ExStore : Store :=
  ⟨[⟨1, "/a", "a", "txt", 1, "t", "t", "t", none, "/", false⟩],
   [⟨1, some "hello", some 1, none⟩],
   [⟨1, "a", some "hello"⟩], 2⟩

end Cortex

/-- C2 counterexample: over a store with one live matching row, the
non-blank query `"hello"` does not return a ranked result list at all —
`search_files_fts` fails with `DatabaseError`, because the `snippet()`
read against the mis-declared external-content FTS table fails. -/
theorem Cortex.c2_search_files_fts_counterexample :
    Cortex.isBlank "hello" = false ∧
    Cortex.searchFilesFts (fun _ _ => true) Cortex.c2ExStore "hello" 10
      = .error (.DatabaseError "SQL logic error") := by
  decide

/-- C2 (amended): `search_files_fts(query, limit)` fails with
`InvalidQuery` if and only if the query is empty or whitespace-only; a
non-blank query returns the empty result list when no non-deleted file
matches, and fails with `DatabaseError` as soon as at least one does
(the `snippet()` read against the mis-declared external-content FTS
table fails), so every successful result list is empty and non-empty
rank-ordered results are unreachable. -/
theorem Cortex.c2_search_files_fts (m : String → Cortex.FtsRow → Bool)
    (s : Cortex.Store) (q : String) (limit : Nat) :
    (Cortex.searchFilesFts m s q limit
        = .error (.InvalidQuery q "Query cannot be empty")
      ↔ Cortex.isBlank q = true) ∧
    (Cortex.isBlank q = false → Cortex.ftsMatchRows m s q = [] →
      Cortex.searchFilesFts m s q limit = .ok []) ∧
    (Cortex.isBlank q = false → Cortex.ftsMatchRows m s q ≠ [] →
      Cortex.searchFilesFts m s q limit
        = .error (.DatabaseError "SQL logic error")) ∧
    (∀ l, Cortex.searchFilesFts m s q limit = .ok l → l = []) := by
  refine ⟨?_, ?_, ?_, ?_⟩
  · by_cases hq : Cortex.isBlank q = true
    · simp [Cortex.searchFilesFts, hq]
    · have hqf : Cortex.isBlank q = false := by simpa using hq
      constructor
      · intro hres
        exfalso
        by_cases hrows : (Cortex.ftsMatchRows m s q).isEmpty
        · simp [Cortex.searchFilesFts, hqf, hrows] at hres
        · have hrf : (Cortex.ftsMatchRows m s q).isEmpty = false := by
            simpa using hrows
          simp [Cortex.searchFilesFts, hqf, hrf] at hres
      · intro h
        rw [h] at hqf
        simp at hqf
  · intro hq hrows
    have he : (Cortex.ftsMatchRows m s q).isEmpty = true := by simp [hrows]
    simp [Cortex.searchFilesFts, hq, he]
  · intro hq hrows
    have he : (Cortex.ftsMatchRows m s q).isEmpty = false := by
      simpa [List.isEmpty_iff] using hrows
    simp [Cortex.searchFilesFts, hq, he]
  · intro l hl
    by_cases hq : Cortex.isBlank q = true
    · simp [Cortex.searchFilesFts, hq] at hl
    · have hqf : Cortex.isBlank q = false := by simpa using hq
      by_cases hrows : (Cortex.ftsMatchRows m s q).isEmpty
      · simp [Cortex.searchFilesFts, hqf, hrows] at hl
        exact hl
      · have hrf : (Cortex.ftsMatchRows m s q).isEmpty = false := by
          simpa using hrows
        simp [Cortex.searchFilesFts, hqf, hrf] at hl

/-- Witness for C2 on the one-file store: a non-blank no-match query
returns the empty list, and a non-blank matching query fails with
`DatabaseError`. -/
theorem Cortex.c2_search_files_fts_witness :
    (Cortex.isBlank "hello" = false ∧
      Cortex.ftsMatchRows (fun _ _ => false) Cortex.c2ExStore "hello" = [] ∧
      Cortex.searchFilesFts (fun _ _ => false) Cortex.c2ExStore "hello" 10
        = .ok []) ∧
    (Cortex.ftsMatchRows (fun _ _ => true) Cortex.c2ExStore "hello" ≠ [] ∧
      Cortex.searchFilesFts (fun _ _ => true) Cortex.c2ExStore "hello" 10
        = .error (.DatabaseError "SQL logic error")) :=
  ⟨⟨by decide, by decide,
    (Cortex.c2_search_files_fts (fun _ _ => false) Cortex.c2ExStore "hello"
      10).2.1 (by decide) (by decide)⟩,
   ⟨by decide,
    (Cortex.c2_search_files_fts (fun _ _ => true) Cortex.c2ExStore "hello"
      10).2.2.1 (by decide) (by decide)⟩⟩

namespace Cortex

/-! ## Upsert-replaces-FTS scenario (C5) and `insert_file` (C7) -/

/-- Split a character list into maximal runs of non-separator
characters (`acc` holds the reversed current run). -/
def splitRuns (p : Char → Bool) : List Char → List Char → List (List Char)
  | [], acc => if acc.isEmpty then [] else [acc.reverse]
  | c :: cs, acc =>
    if p c then
      if acc.isEmpty then splitRuns p cs []
      else acc.reverse :: splitRuns p cs []
    else splitRuns p cs (c :: acc)

/-- The FTS5 tokenizer on a column value, concretely: case-fold and
split on non-alphanumeric characters.  Porter stemming is the identity
on every term appearing in the modelled scenario, so it is omitted. -/
def ftsTokens (s : String) : List (List Char) :=
  splitRuns (fun c => !c.isAlphanum) (s.data.map Char.toLower) []

/-- A concrete FTS5 `MATCH` for a single-term query: the case-folded
query is a token of the `filename` or `content` column (a NULL content
column contributes no tokens). -/
def simpleMatch (q : String) (r : FtsRow) : Bool :=
  let qtok := q.data.map Char.toLower
  (ftsTokens r.filename).contains qtok ||
    (match r.content with
     | some c => (ftsTokens c).contains qtok
     | none => false)

/-- Index a file with content `"databases"`, then upsert the same file
with `"rust programming"` (the spec's end-to-end scenario 2). -/
def c5Ops : List StoreOp :=
  [.insertFile "/test/data.txt" "data.txt" "txt" 100 "t" "t" none "/test" "t",
   .upsertContent 1 (some "databases") none,
   .upsertContent 1 (some "rust programming") none]

/-- The store after the C5 scenario. -/
def c5Store : Store := applyOps Store.empty c5Ops

end Cortex

/-- The store after indexing the file and upserting `"databases"` —
the fresh-insert path, which works. -/
def Cortex.c5StoreMid : Cortex.Store :=
  Cortex.applyOps Cortex.Store.empty
    [.insertFile "/test/data.txt" "data.txt" "txt" 100 "t" "t" none "/test"
      "t",
     .upsertContent 1 (some "databases") none]

/-- C5 counterexample: after the scenario's second upsert, searching
the old term `"databases"` does not return "no results" — it fails with
`DatabaseError` — and searching the new term `"rust"` does not return
the file: it returns the empty list.  The conflict-path upsert itself
had failed and rolled back, so `"databases"` is still the indexed
content. -/
theorem Cortex.c5_upsert_replaces_fts_counterexample :
    Cortex.searchFilesFts Cortex.simpleMatch Cortex.c5Store "databases" 10
      = .error (.DatabaseError "SQL logic error") ∧
    Cortex.searchFilesFts Cortex.simpleMatch Cortex.c5Store "rust" 10
      = .ok [] := by
  decide

/-- C5 (amended): re-upserting the already-indexed file with
`"rust programming"` fails with `DatabaseError` — the
`files_fts_update` trigger cannot read the mis-declared external
content table (`no such column: T.filename`) — and the statement rolls
back, so the store still holds `"databases"`; a subsequent full-text
search for the old term `"databases"` fails with `DatabaseError` (the
matching row breaks the `snippet()` read) rather than finding nothing,
and a search for the new term `"rust"` returns no results rather than
the file. -/
theorem Cortex.c5_upsert_replaces_fts :
    Cortex.upsertFileContent Cortex.c5StoreMid 1 (some "rust programming")
        none
      = .error (.DatabaseError "no such column: T.filename") ∧
    Cortex.c5Store = Cortex.c5StoreMid ∧
    (Cortex.c5Store.contents.any fun c =>
      c.fileId == 1 && c.textContent == some "databases") = true ∧
    Cortex.searchFilesFts Cortex.simpleMatch Cortex.c5Store "databases" 10
      = .error (.DatabaseError "SQL logic error") ∧
    Cortex.searchFilesFts Cortex.simpleMatch Cortex.c5Store "rust" 10
      = .ok [] := by
  decide

/-- The store holding one file at path `"/a"`. -/
def Cortex.c7ExStore : Cortex.Store :=
  ⟨[⟨1, "/a", "a", "txt", 1, "t", "t", "t", none, "/", false⟩], [], [], 2⟩

/-- C7 counterexample: inserting a path that is already stored fails
with `DatabaseError` (the mapped SQLite UNIQUE violation) — there is no
`Duplicate` variant in `error.rs` for it to fail with. -/
theorem Cortex.c7_insert_file_counterexample :
    Cortex.insertFileOp Cortex.c7ExStore "/a" "a" "txt" 1 "t" "t" none "/" "t"
      = .error (.DatabaseError "UNIQUE constraint failed: files.path") := by
  decide

/-- C7 (amended): `insert_file` fails — with a `DatabaseError` carrying
the SQLite UNIQUE-constraint message, since `error.rs` has no
`Duplicate` variant — exactly when the given path is already present
among stored files (soft-deleted ones included), and on success returns
the id of the newly created row. -/
theorem Cortex.c7_insert_file (s : Cortex.Store)
    (path fn ft : String) (sz : Int) (ca ma : String)
    (hash : Option String) (rp now : String) :
    ((∃ f ∈ s.files, f.path = path) →
      Cortex.insertFileOp s path fn ft sz ca ma hash rp now
        = .error (.DatabaseError "UNIQUE constraint failed: files.path")) ∧
    (¬(∃ f ∈ s.files, f.path = path) →
      Cortex.insertFileOp s path fn ft sz ca ma hash rp now
        = .ok ({ s with
            files := s.files ++
              [⟨s.nextId, path, fn, ft, sz, ca, ma, now, hash, rp, false⟩],
            nextId := s.nextId + 1 }, s.nextId)) := by
  constructor
  · intro hex
    obtain ⟨f, hf, hp⟩ := hex
    have hdup : s.files.any (fun g => g.path == path) = true :=
      List.any_eq_true.mpr ⟨f, hf, by simpa using hp⟩
    unfold Cortex.insertFileOp
    rw [if_pos hdup]
  · intro hno
    have hdup : s.files.any (fun g => g.path == path) = false := by
      rw [List.any_eq_false]
      intro f hf hcontra
      exact hno ⟨f, hf, by simpa using hcontra⟩
    unfold Cortex.insertFileOp
    rw [if_neg (by simp [hdup])]

/-- Witness for C7: the duplicate path `"/a"` fails with
`DatabaseError`; the fresh path `"/b"` succeeds and returns the new
row's id `2`. -/
theorem Cortex.c7_insert_file_witness :
    Cortex.insertFileOp Cortex.c7ExStore "/a" "a" "txt" 1 "t" "t" none "/" "t"
      = .error (.DatabaseError "UNIQUE constraint failed: files.path") ∧
    Cortex.insertFileOp Cortex.c7ExStore "/b" "b" "txt" 1 "t" "t" none "/" "t"
      = .ok ({ Cortex.c7ExStore with
          files := Cortex.c7ExStore.files ++
            [⟨2, "/b", "b", "txt", 1, "t", "t", "t", none, "/", false⟩],
          nextId := 3 }, 2) :=
  ⟨(Cortex.c7_insert_file Cortex.c7ExStore "/a" "a" "txt" 1 "t" "t" none "/"
      "t").1 (by decide),
   (Cortex.c7_insert_file Cortex.c7ExStore "/b" "b" "txt" 1 "t" "t" none "/"
      "t").2 (by decide)⟩

namespace Cortex

/-! ## Scanner job ordering (`indexer/scanner.rs`, `commands/indexing.rs`)

Filesystem traversal and filtering are abstracted into the scanner's
candidate job list (in traversal order); the modelled part is the final
`jobs.sort_by(|a, b| b.priority.cmp(&a.priority))` — a stable sort on
the priority alone — and the pipeline's per-root
`all_jobs.extend(jobs)` concatenation, which never re-sorts globally. -/

/-- `IndexJob` from `indexer/types.rs`; `modified` is the `SystemTime`
as an instant on a discrete clock. -/
structure IndexJob where
  path : String
  priority : IndexPriority
  size : Nat
  modified : Nat
deriving DecidableEq, Repr

/-- `IndexJob::new`: priority is derived from the size. -/
def IndexJob.new (path : String) (size : Nat) (modified : Nat) : IndexJob :=
  ⟨path, IndexPriority.fromSize size, size, modified⟩

/-- The sort at the end of `FileScanner::scan_directory`: stable,
descending on priority only (`Vec::sort_by` is stable, and insertion
sort keeping earlier elements among equals computes the same list). -/
def scanSortJobs (jobs : List IndexJob) : List IndexJob :=
  sortByKey (fun j => -(j.priority.toDiscr : Int)) jobs

/-- `run_indexing_pipeline`: scan each root, extend `all_jobs` in root
order, and extract jobs in that list order. -/
def pipelineJobs (rootScans : List (List IndexJob)) : List IndexJob :=
  (rootScans.map scanSortJobs).flatten

/-- Two equal-priority jobs, older first in traversal order. -/
def c4JobA : IndexJob := IndexJob.new "/r/a.txt" 100 1

/-- The newer of the two equal-priority jobs. -/
def c4JobB : IndexJob := IndexJob.new "/r/b.txt" 100 2

/-- A low-priority (huge) job in the first root. -/
def c4JobLow : IndexJob := IndexJob.new "/r1/big.bin" 200000000 5

/-- An immediate-priority (tiny) job in the second root. -/
def c4JobImm : IndexJob := IndexJob.new "/r2/small.txt" 10 5

end Cortex

/-- C4 counterexample: `scan_directory` keeps two equal-priority jobs in
traversal order even when the first is older (the claim demands
modified-descending within equal priority), and a pipeline over two
roots extracts a low-priority job of the first root before an
immediate-priority job of the second root (the claim demands that the
higher-priority job always comes first). -/
theorem Cortex.c4_job_ordering_counterexample :
    Cortex.scanSortJobs [Cortex.c4JobA, Cortex.c4JobB]
      = [Cortex.c4JobA, Cortex.c4JobB] ∧
    Cortex.c4JobA.priority = Cortex.c4JobB.priority ∧
    Cortex.c4JobA.modified < Cortex.c4JobB.modified ∧
    Cortex.pipelineJobs [[Cortex.c4JobLow], [Cortex.c4JobImm]]
      = [Cortex.c4JobLow, Cortex.c4JobImm] ∧
    Cortex.c4JobLow.priority.toDiscr < Cortex.c4JobImm.priority.toDiscr := by
  decide

/-- C4 (amended): `scan_directory` returns its jobs sorted by priority
descending only — a stable sort that never consults the modified
timestamp, so equal-priority jobs stay in traversal order — and the
result is a permutation of the scanned jobs.  Consequently, within a
single root's scan any job of strictly higher priority is extracted
before any of lower priority, but across different roots the pipeline
concatenates per-root lists without re-sorting and gives no ordering
guarantee. -/
theorem Cortex.c4_job_ordering (jobs : List Cortex.IndexJob) :
    (Cortex.scanSortJobs jobs).Pairwise
      (fun a b => b.priority.toDiscr ≤ a.priority.toDiscr) ∧
    (Cortex.scanSortJobs jobs).Perm jobs := by
  constructor
  · have h := Cortex.sortByKey_sorted
      (fun j => -(j.priority.toDiscr : Int)) jobs
    exact h.imp (fun hab => by omega)
  · exact Cortex.sortByKey_perm _ jobs

namespace Cortex

/-! ## Export path validation (`export/path_validator.rs`)

Paths are Unix-style strings; components are character lists.  The
filesystem is an explicit environment: current working directory, home
directory, system temp directory (all as absolute component lists), a
directory-existence test and a canonicalisation function (total: the
`Err` branches of `std::env::current_dir` and `Path::canonicalize`,
which the source maps to `CortexError::Internal`, are not modelled).
`Path::components()` semantics on such strings: empty and `"."` entries
disappear (we only ever inspect joined absolute paths, where a leading
`"."` cannot survive either), `".."` entries are `Component::ParentDir`. -/

/-- Split a character list on a separator, keeping empty pieces (the
`acc` argument holds the reversed current piece). -/
def splitSep (sep : Char) : List Char → List Char → List (List Char)
  | [], acc => [acc.reverse]
  | c :: cs, acc =>
    if c == sep then acc.reverse :: splitSep sep cs []
    else splitSep sep cs (c :: acc)

/-- The raw `/`-separated pieces of a path string. -/
def rawComps (p : String) : List (List Char) := splitSep '/' p.data []

/-- `Path::is_absolute` on Unix: the path starts with `/`. -/
def isAbsStr (p : String) : Bool :=
  match p.data with
  | '/' :: _ => true
  | _ => false

/-- Some component of the path is `Component::ParentDir` (`".."`). -/
def hasDotDot (p : String) : Bool := (rawComps p).any (· == ['.', '.'])

/-- The normalised components of the path, as `Path::components()`
yields them: empty pieces (repeated or trailing separators) and `"."`
pieces are dropped. -/
def normComps (p : String) : List (List Char) :=
  (rawComps p).filter fun c => !(c.isEmpty || c == ['.'])

/-- The filesystem environment of `validate_export_path`. -/
structure FsEnv where
  cwd : List (List Char)
  home : List (List Char)
  temp : List (List Char)
  hasDir : List (List Char) → Bool
  canon : List (List Char) → List (List Char)

/-- The resolved output path: an absolute input stands alone, a
relative one is joined onto the current working directory. -/
def fullPathOf (env : FsEnv) (path : String) : List (List Char) :=
  if isAbsStr path then normComps path else env.cwd ++ normComps path

/-- `PathValidator::validate_export_path`: reject blank input; reject
any `..` component; for absolute paths require a home/temp ancestor
(`validate_absolute_path`); resolve relative paths against the cwd;
when the resolved path has a parent (`fullPathOf ≠ []`) that exists on
disk, canonicalise it and — for relative inputs — reject if the
canonical parent leaves the cwd; return the validated absolute
component list. -/
def validateExportPath (env : FsEnv) (path : String) :
    Except CortexError (List (List Char)) :=
  if isBlank path then
    .error (.InvalidPath path "Export path cannot be empty")
  else if hasDotDot path then
    .error (.InvalidPath path "Path traversal is not allowed (..)")
  else if isAbsStr path &&
      !(env.home.isPrefixOf (normComps path) ||
        env.temp.isPrefixOf (normComps path)) then
    .error (.InvalidPath path
      "Absolute paths must be within home directory or temp directory")
  else if fullPathOf env path = [] then .ok []
  else if env.hasDir (fullPathOf env path).dropLast then
    if !isAbsStr path &&
        !(env.cwd.isPrefixOf (env.canon (fullPathOf env path).dropLast)) then
      .error (.InvalidPath path "Path resolves outside of working directory")
    else
      match (fullPathOf env path).getLast? with
      | some fname => .ok (env.canon (fullPathOf env path).dropLast ++ [fname])
      | none => .error (.InvalidPath path "Path must include a filename")
  else .ok (fullPathOf env path)

/-- The claim's rejection condition, in its own words: blank input; a
`..` component; an absolute path under neither home nor temp; a
relative path whose resolved parent exists and canonicalises outside
the cwd. -/
def claimRejects (env : FsEnv) (p : String) : Prop :=
  isBlank p = true ∨
  hasDotDot p = true ∨
  (isAbsStr p = true ∧
    ¬(env.home.isPrefixOf (normComps p) = true ∨
      env.temp.isPrefixOf (normComps p) = true)) ∨
  (isAbsStr p = false ∧ env.cwd ++ normComps p ≠ [] ∧
    env.hasDir ((env.cwd ++ normComps p).dropLast) = true ∧
    ¬env.cwd.isPrefixOf (env.canon ((env.cwd ++ normComps p).dropLast)) = true)

end Cortex

/-- C6: `validate_export_path` rejects — always with `InvalidPath`
carrying the offending path — exactly the blank strings, the paths with
a `..` component, the absolute paths under neither the home nor the
temp directory, and the relative paths whose resolved parent exists and
canonicalises outside the current working directory; every other input
is accepted. -/
theorem Cortex.c6_validate_export_path (env : Cortex.FsEnv) (p : String) :
    (∃ reason, Cortex.validateExportPath env p
        = .error (.InvalidPath p reason)) ↔ Cortex.claimRejects env p := by
  have hfullrel : Cortex.isAbsStr p = false →
      Cortex.fullPathOf env p = env.cwd ++ Cortex.normComps p := by
    intro h; simp [Cortex.fullPathOf, h]
  unfold Cortex.validateExportPath Cortex.claimRejects
  split_ifs with h1 h2 h3 h4 h5 h6
  · exact ⟨fun _ => Or.inl h1, fun _ => ⟨_, rfl⟩⟩
  · exact ⟨fun _ => Or.inr (Or.inl h2), fun _ => ⟨_, rfl⟩⟩
  · rw [Bool.and_eq_true] at h3
    refine ⟨fun _ => Or.inr (Or.inr (Or.inl ⟨h3.1, ?_⟩)), fun _ => ⟨_, rfl⟩⟩
    have hsafe := h3.2
    rw [Bool.not_eq_true'] at hsafe
    rw [Bool.or_eq_false_iff] at hsafe
    rintro (h | h)
    · rw [hsafe.1] at h; cases h
    · rw [hsafe.2] at h; cases h
  · constructor
    · rintro ⟨reason, hres⟩
      exact absurd hres (by simp)
    · rintro (h | h | ⟨ha, hn⟩ | ⟨hrel, hfne, _, _⟩)
      · exact absurd h h1
      · exact absurd h h2
      · refine absurd ?_ h3
        have hx : env.home.isPrefixOf (Cortex.normComps p) = false := by
          by_contra hc
          exact hn (Or.inl (by simpa using hc))
        have hy : env.temp.isPrefixOf (Cortex.normComps p) = false := by
          by_contra hc
          exact hn (Or.inr (by simpa using hc))
        simp [ha, hx, hy]
      · exact absurd h4 (by rw [hfullrel hrel]; exact hfne)
  · rw [Bool.and_eq_true, Bool.not_eq_true', Bool.not_eq_true'] at h6
    obtain ⟨h6a, h6b⟩ := h6
    refine ⟨fun _ => Or.inr (Or.inr (Or.inr ⟨h6a, ?_, ?_, ?_⟩)),
      fun _ => ⟨_, rfl⟩⟩
    · rw [← hfullrel h6a]
      exact h4
    · rw [← hfullrel h6a]
      exact h5
    · rw [← hfullrel h6a, h6b]
      simp
  · cases hl : (Cortex.fullPathOf env p).getLast? with
    | none =>
      rw [List.getLast?_eq_none_iff] at hl
      exact absurd hl h4
    | some fname =>
      simp only [hl]
      constructor
      · rintro ⟨reason, hres⟩
        exact absurd hres (by simp)
      · rintro (h | h | ⟨ha, hn⟩ | ⟨hrel, hfne, hdir, hpre⟩)
        · exact absurd h h1
        · exact absurd h h2
        · refine absurd ?_ h3
          have hx : env.home.isPrefixOf (Cortex.normComps p) = false := by
            by_contra hc
            exact hn (Or.inl (by simpa using hc))
          have hy : env.temp.isPrefixOf (Cortex.normComps p) = false := by
            by_contra hc
            exact hn (Or.inr (by simpa using hc))
          simp [ha, hx, hy]
        · refine absurd ?_ h6
          rw [Bool.and_eq_true, Bool.not_eq_true', Bool.not_eq_true']
          refine ⟨hrel, ?_⟩
          rw [hfullrel hrel]
          by_contra hc
          exact hpre (by simpa using hc)
  · constructor
    · rintro ⟨reason, hres⟩
      exact absurd hres (by simp)
    · rintro (h | h | ⟨ha, hn⟩ | ⟨hrel, hfne, hdir, hpre⟩)
      · exact absurd h h1
      · exact absurd h h2
      · refine absurd ?_ h3
        have hx : env.home.isPrefixOf (Cortex.normComps p) = false := by
          by_contra hc
          exact hn (Or.inl (by simpa using hc))
        have hy : env.temp.isPrefixOf (Cortex.normComps p) = false := by
          by_contra hc
          exact hn (Or.inr (by simpa using hc))
        simp [ha, hx, hy]
      · rw [hfullrel hrel] at h5
        exact absurd hdir h5

/-- A concrete filesystem environment: cwd `/w`, home `/h`, temp `/t`,
nothing exists on disk, canonicalisation is the identity. -/
def Cortex.c6ExEnv : Cortex.FsEnv :=
  ⟨[['w']], [['h']], [['t']], fun _ => false, fun l => l⟩

/-- Witness for C6: the traversal path `"../x"` is rejected with
`InvalidPath`. -/
theorem Cortex.c6_validate_export_path_witness :
    ∃ reason, Cortex.validateExportPath Cortex.c6ExEnv "../x"
      = .error (.InvalidPath "../x" reason) :=
  (Cortex.c6_validate_export_path Cortex.c6ExEnv "../x").mpr
    (Or.inr (Or.inl (by decide)))

/-- Witness for C9 at the boundary-interior size 5 MB. -/
theorem Cortex.c9_priority_from_size_witness :
    (1000000 ≤ 5000000 ∧ 5000000 < 10000000) ∧
    Cortex.IndexPriority.fromSize 5000000 = .High :=
  ⟨by decide, (Cortex.c9_priority_from_size 5000000).2.1.mpr (by decide)⟩

namespace Cortex

/-! ## File detail preview (`commands/search.rs::get_file_detail`)

`text_content` is embedded as its UTF-8 byte list, because the source
slices the string by byte index: `&text[..500.min(text.len())]`, where
`len()` is the byte length.  The Rust slice panics when the cut is not
a character boundary; the model returns `none` there. -/

/-- `str::is_char_boundary` for an index `i ≤ length`: the start, the
end, or a byte that is not a UTF-8 continuation byte. -/
def isCharBoundary (bytes : List Nat) (i : Nat) : Bool :=
  i == 0 || i == bytes.length ||
    (match bytes[i]? with
     | some b => !(128 ≤ b && b < 192)
     | none => true)

/-- The `file_content` row as `get_file_detail` reads it, with the text
as UTF-8 bytes. -/
structure ContentRowB where
  fileId : Nat
  textContent : Option (List Nat)
  wordCount : Option Nat
  summary : Option String
deriving DecidableEq, Repr

/-- The `FileDetail` response of `commands/search.rs`. -/
structure FileDetail where
  id : Nat
  path : String
  filename : String
  fileType : String
  size : Int
  createdAt : String
  modifiedAt : String
  contentPreview : Option (List Nat)
  fullContent : Option (List Nat)
  wordCount : Option Nat
  summary : Option String
deriving DecidableEq, Repr

/-- The UTF-8 bytes of `"..."`. -/
def dotsBytes : List Nat := [46, 46, 46]

/-- `get_file_detail`'s response assembly: the preview is
`format!("{}...", &text[..500.min(text.len())])` — the ellipsis is
appended unconditionally — and `none` models the byte-slice panic on a
non-boundary cut; `full_content` is the raw text only when requested. -/
def getFileDetail (file : FileRow) (content : Option ContentRowB)
    (includeFull : Bool) : Option FileDetail :=
  match content with
  | none =>
    some ⟨file.id, file.path, file.filename, file.fileType, file.size,
      file.createdAt, file.modifiedAt, none, none, none, none⟩
  | some c =>
    match c.textContent with
    | none =>
      some ⟨file.id, file.path, file.filename, file.fileType, file.size,
        file.createdAt, file.modifiedAt, none, none, c.wordCount, c.summary⟩
    | some t =>
      if isCharBoundary t (min 500 t.length) then
        some ⟨file.id, file.path, file.filename, file.fileType, file.size,
          file.createdAt, file.modifiedAt,
          some (t.take (min 500 t.length) ++ dotsBytes),
          if includeFull then some t else none, c.wordCount, c.summary⟩
      else none

/-- The metadata-only file row used in the preview scenarios. -/
def c8ExFile : FileRow := ⟨1, "/a", "a", "txt", 1, "t", "t", "t", none, "/", false⟩

/-- The two-byte ASCII text `"hi"`. -/
def c8ShortText : List Nat := [104, 105]

/-- 167 euro signs: 501 valid UTF-8 bytes whose byte 500 is a
continuation byte. -/
def c8WideText : List Nat := (List.replicate 167 [226, 130, 172]).flatten

end Cortex

set_option maxRecDepth 10000 in
/-- C8 counterexample: for the 2-byte text `"hi"` the preview is
`"hi..."`, not the unmodified text the claim demands for content of at
most 500 units; and for a valid 501-byte UTF-8 text of euro signs the
byte-slice cut at 500 is not a character boundary, so the operation
panics although the claim says it never fails on valid UTF-8. -/
theorem Cortex.c8_get_file_detail_counterexample :
    Cortex.getFileDetail Cortex.c8ExFile
        (some ⟨1, some Cortex.c8ShortText, some 1, none⟩) false
      = some ⟨1, "/a", "a", "txt", 1, "t", "t",
          some [104, 105, 46, 46, 46], none, some 1, none⟩ ∧
    (some [104, 105, 46, 46, 46] : Option (List Nat))
      ≠ some Cortex.c8ShortText ∧
    Cortex.getFileDetail Cortex.c8ExFile
        (some ⟨1, some Cortex.c8WideText, some 167, none⟩) false
      = none := by
  decide

/-- C8 (amended): for a file with non-null `text_content`, the returned
preview is the first `min(500, byte_length)` bytes of the text with
`"..."` appended unconditionally (also when nothing was cut); the
operation panics exactly when the text is longer than 500 bytes and
byte 500 is a UTF-8 continuation byte, so it can fail on valid UTF-8;
`full_content` is present if and only if `include_full_content` is
true. -/
theorem Cortex.c8_get_file_detail (file : Cortex.FileRow)
    (c : Cortex.ContentRowB) (t : List Nat) (includeFull : Bool)
    (ht : c.textContent = some t) :
    (Cortex.getFileDetail file (some c) includeFull = none ↔
      (500 < t.length ∧ Cortex.isCharBoundary t 500 = false)) ∧
    ∀ d, Cortex.getFileDetail file (some c) includeFull = some d →
      d.contentPreview = some (t.take (min 500 t.length) ++ Cortex.dotsBytes) ∧
      d.fullContent = (if includeFull then some t else none) := by
  have hend : Cortex.isCharBoundary t t.length = true := by
    simp [Cortex.isCharBoundary]
  simp only [Cortex.getFileDetail, ht]
  by_cases hb : Cortex.isCharBoundary t (min 500 t.length) = true
  · rw [if_pos hb]
    constructor
    · constructor
      · intro hcontra
        exact absurd hcontra (by simp)
      · rintro ⟨hlen, hbf⟩
        have hmin : min 500 t.length = 500 := by omega
        rw [hmin] at hb
        rw [hb] at hbf
        cases hbf
    · intro d hd
      have hd' := Option.some.inj hd
      subst hd'
      exact ⟨rfl, rfl⟩
  · rw [if_neg hb]
    have hbf : Cortex.isCharBoundary t (min 500 t.length) = false := by
      simpa using hb
    constructor
    · constructor
      · intro _
        by_cases hlen : 500 < t.length
        · have hmin : min 500 t.length = 500 := by omega
          rw [hmin] at hbf
          exact ⟨hlen, hbf⟩
        · have hmin : min 500 t.length = t.length := by omega
          rw [hmin, hend] at hbf
          cases hbf
      · intro _
        rfl
    · intro d hd
      cases hd

/-- The expected `FileDetail` for the `"hi"` text with full content
requested. -/
def Cortex.c8DetailEx : Cortex.FileDetail :=
  ⟨1, "/a", "a", "txt", 1, "t", "t", some [104, 105, 46, 46, 46],
    some [104, 105], some 1, none⟩

/-- Witness for C8 on the `"hi"` content with `include_full_content`. -/
theorem Cortex.c8_get_file_detail_witness :
    Cortex.getFileDetail Cortex.c8ExFile
        (some ⟨1, some Cortex.c8ShortText, some 1, none⟩) true
      = some Cortex.c8DetailEx ∧
    Cortex.c8DetailEx.contentPreview
      = some (Cortex.c8ShortText.take (min 500 Cortex.c8ShortText.length)
          ++ Cortex.dotsBytes) ∧
    Cortex.c8DetailEx.fullContent
      = (if true then some Cortex.c8ShortText else none) :=
  ⟨by decide,
   ((Cortex.c8_get_file_detail Cortex.c8ExFile
      ⟨1, some Cortex.c8ShortText, some 1, none⟩ Cortex.c8ShortText true
      rfl).2 Cortex.c8DetailEx (by decide)).1,
   ((Cortex.c8_get_file_detail Cortex.c8ExFile
      ⟨1, some Cortex.c8ShortText, some 1, none⟩ Cortex.c8ShortText true
      rfl).2 Cortex.c8DetailEx (by decide)).2⟩

namespace Cortex

/-! ## `generate_all_embeddings` (`commands/ai_commands.rs`)

Only the shape of the state that drives the loop matters: per file, its
id, whether its `FileContent.text_content` is non-null, its soft-delete
flag, and whether an embedding row exists.  The embedding vectors
themselves and the model are irrelevant to the control flow (the model
lets `service.embed` always succeed). -/

/-- A file as seen by the embedding loop. -/
structure EmbFile where
  id : Nat
  hasText : Bool
  deleted : Bool
  hasEmb : Bool
deriving DecidableEq, Repr

/-- Modelled from the spec: `get_files_without_embeddings(limit)` — the
spec's Store contract lists this operation
(`get_files_without_embeddings(limit)`) but its implementation is
absent from the source tree (`db/operations.rs` ends before the
embedding helpers).  It returns up to `limit` non-deleted files that
have no embedding row, in table order. -/
def getFilesWithoutEmbeddings (db : List EmbFile) (limit : Nat) :
    List EmbFile :=
  (db.filter fun f => !f.deleted && !f.hasEmb).take limit

/-- Modelled from the spec: `upsert_embedding(file_id, vector,
model_version)` — also absent from the source tree; on the control-flow
state it marks the file id as embedded. -/
def upsertEmbedding (db : List EmbFile) (fid : Nat) : List EmbFile :=
  db.map fun f => if f.id == fid then { f with hasEmb := true } else f

/-- The outcome of one pass of the `loop` in `generate_all_embeddings`. -/
inductive GenStep where
  | done (total : Nat)
  | next (db : List EmbFile) (total : Nat)
deriving DecidableEq, Repr

/-- One iteration of the fetch-and-embed loop: fetch a batch; an empty
batch exits with the total; otherwise embed and store an embedding for
every fetched file whose text is non-null (NULL-text files are
skipped); finally exit when the cumulative `total_generated` is still
below `batch_size`, else loop. -/
def genAllStep (batchSize : Nat) (db : List EmbFile) (total : Nat) :
    GenStep :=
  let files := getFilesWithoutEmbeddings db batchSize
  if files.isEmpty then .done total
  else
    let db' := files.foldl
      (fun d f => if f.hasText then upsertEmbedding d f.id else d) db
    let total' := total + (files.filter (·.hasText)).length
    if total' < batchSize then .done total' else .next db' total'

/-- The loop under explicit fuel; `none` means the loop had not exited
after `fuel` iterations. -/
def genAllRun : Nat → Nat → List EmbFile → Nat → Option Nat
  | 0, _, _, _ => none
  | fuel + 1, batch, db, total =>
    match genAllStep batch db total with
    | .done n => some n
    | .next db' total' => genAllRun fuel batch db' total'

/-- One embeddable file followed by one non-deleted file with NULL
text, neither embedded yet. -/
def c10Db0 : List EmbFile :=
  [⟨1, true, false, false⟩, ⟨2, false, false, false⟩]

/-- The same store after file 1 has received its embedding: the state
the loop can never leave. -/
def c10DbFix : List EmbFile :=
  [⟨1, true, false, true⟩, ⟨2, false, false, false⟩]

end Cortex

set_option maxRecDepth 4000 in
/-- C10 counterexample: with `batch_size = 1` over `c10Db0` the first
iteration embeds file 1 and reaches total 1, which is not below the
batch size, so the loop continues; every later iteration refetches the
NULL-text file 2, generates nothing, keeps total 1 and continues with
an unchanged state — the loop body maps the state to itself, and after
1000 iterations the loop still has not exited. -/
theorem Cortex.c10_generate_all_embeddings_counterexample :
    Cortex.genAllStep 1 Cortex.c10Db0 0 = .next Cortex.c10DbFix 1 ∧
    Cortex.genAllStep 1 Cortex.c10DbFix 1 = .next Cortex.c10DbFix 1 ∧
    Cortex.genAllRun 1000 1 Cortex.c10Db0 0 = none := by
  decide

/-- C10 (amended): `generate_all_embeddings(batch_size)` does not
terminate for every database state: because the break check compares
the cumulative `total_generated` (not the size of the fetched batch)
against `batch_size`, a store holding one embeddable file followed by a
non-deleted NULL-text file makes the batch-1 loop embed the first file
and then refetch the second forever — for every amount of fuel the loop
has not exited.  (A store in which all embedding-less files have NULL
text, as singled out by the claim, does terminate: the total stays 0
below the batch size.) -/
theorem Cortex.c10_generate_all_embeddings (fuel : Nat) :
    Cortex.genAllRun fuel 1 Cortex.c10Db0 0 = none := by
  have hfix : ∀ n, Cortex.genAllRun n 1 Cortex.c10DbFix 1 = none := by
    intro n
    induction n with
    | zero => rfl
    | succ k ih =>
      have hstep : Cortex.genAllStep 1 Cortex.c10DbFix 1
          = .next Cortex.c10DbFix 1 := by decide
      simp only [Cortex.genAllRun, hstep]
      exact ih
  cases fuel with
  | zero => rfl
  | succ k =>
    have hstep : Cortex.genAllStep 1 Cortex.c10Db0 0
        = .next Cortex.c10DbFix 1 := by decide
    simp only [Cortex.genAllRun, hstep]
    exact hfix k
